import Mathlib

/-!
Shallow embedding of `src/fireworks_app.py` (class `FireworksApp`), a
tkinter fireworks animation.  The timer-driven callbacks (`root.after`)
are modelled as pure step functions on explicit state; canvas coordinates
are elements of a linear ordered field (`ℚ` for concrete evaluation, `ℝ`
where the source uses `math.cos` / `math.sin`).  A canvas item's position
is the top-left corner of its bounding box, which is what
`canvas.coords(...)[0]` and `[1]` return for the ovals the source creates.
`canvas.coords` of a deleted item returns an empty list; this is modelled
by the `present` flag and by `Option` results.  Randomness
(`random.randint`, `random.uniform`, `random.choice`) is modelled by
passing the drawn values as arguments.
-/

namespace Fireworks

/-- A burst particle as built by `explode`: the canvas oval handle (`id`),
its current top-left position `(x, y)`, its fixed per-frame velocity
`(dx, dy)`, its fill color, and whether its visual still exists on the
canvas (`canvas.coords` returns a nonempty list). -/
structure Particle (α : Type) where
  id : ℕ
  x : α
  y : α
  dx : α
  dy : α
  color : String
  present : Bool
  deriving DecidableEq

variable {α : Type} [LinearOrderedField α]

/-- One particle's treatment inside one `animate_explosion` pass
(`src/fireworks_app.py` lines 145-156): if `canvas.coords` is empty the
particle is deleted (`none`); otherwise it is moved by
`(dx * 0.1, dy * 0.1)` and deleted when the new position leaves
`[0, width] × [0, height]`, else kept with the new position. -/
def stepParticle (width height : α) (p : Particle α) : Option (Particle α) :=
  if p.present then
    if 0 ≤ p.x + p.dx * (1 / 10) ∧ p.x + p.dx * (1 / 10) ≤ width ∧
       0 ≤ p.y + p.dy * (1 / 10) ∧ p.y + p.dy * (1 / 10) ≤ height then
      some { p with x := p.x + p.dx * (1 / 10), y := p.y + p.dy * (1 / 10) }
    else
      none
  else
    none

/-- One call of `animate_explosion` (lines 136-160): builds
`remaining_particles` from the input list and calls
`root.after(50, self.animate_explosion, remaining_particles)` exactly when
`remaining_particles` is nonempty.  Returns the remaining list and the
scheduling decision. -/
def animate_explosion (width height : α) (particles : List (Particle α)) :
    List (Particle α) × Bool :=
  let remaining := particles.filterMap (stepParticle width height)
  (remaining, !remaining.isEmpty)

/-- The particle list after `n` timer-driven calls of `animate_explosion`. -/
def explosionFrames (width height : α) (particles : List (Particle α)) :
    ℕ → List (Particle α)
  | 0 => particles
  | n + 1 => (animate_explosion width height (explosionFrames width height particles n)).1

/-- One particle followed through `k` calls of `animate_explosion`:
`none` once the particle has been deleted. -/
def particleAfter (width height : α) (p : Particle α) : ℕ → Option (Particle α)
  | 0 => some p
  | k + 1 => (particleAfter width height p k).bind (stepParticle width height)

/-- The palette of `explode` (line 118). -/
def colors : List String :=
  ["red", "orange", "yellow", "green", "blue", "purple", "white"]

/-- The random draws made for one burst particle in `explode`
(lines 123-127): `angle = random.uniform(0, 2*math.pi)`,
`distance = random.uniform(20, 100)`, and the index picked by
`random.choice(colors)`. -/
structure Draw where
  angle : ℝ
  distance : ℝ
  colorIdx : Fin colors.length

/-- One burst particle as created in the body of `explode`'s loop
(lines 122-131): an oval at `(x, y_target, x + 5, y_target + 5)` with
`dx = distance * cos(angle)`, `dy = distance * sin(angle)` and the chosen
color.  `i` is the canvas handle. -/
noncomputable def mkBurstParticle (x y_target : ℝ) (i : ℕ) (d : Draw) : Particle ℝ :=
  { id := i
    x := x
    y := y_target
    dx := d.distance * Real.cos d.angle
    dy := d.distance * Real.sin d.angle
    color := colors.get d.colorIdx
    present := true }

/-- `explode(rocket, x, y_target)` (lines 108-134): deletes the rocket
visual and creates exactly 30 particles (`for _ in range(30)`), one per
draw, then starts `animate_explosion` on them. -/
noncomputable def explode (x y_target : ℝ) (draws : ℕ → Draw) : List (Particle ℝ) :=
  (List.range 30).map (fun i => mkBurstParticle x y_target i (draws i))

/-- `animate_rocket(rocket, x, y_start, y_target)` (lines 92-106): while
`y_start > y_target` the visual is moved by `(0, -10)` and the callback is
re-scheduled with `y_start - 10`; otherwise `explode(rocket, x, y_target)`
is invoked.  Returns the trace of tracked `y_start` values (one entry per
frame, starting with the initial one) and the point handed to `explode`. -/
def animate_rocket (x y_start y_target : ℤ) : List ℤ × ℤ × ℤ :=
  if h : y_start > y_target then
    let r := animate_rocket x (y_start - 10) y_target
    (y_start :: r.1, r.2)
  else
    ([y_start], (x, y_target))
termination_by (y_start - y_target).toNat
decreasing_by omega

/-- `create_rocket` (lines 76-90): `x = random.randint(100, width - 100)`,
`y_start = height`, `y_target = random.randint(100, 300)` and the rocket
animation is started.  The drawn `x` and `y_target` are arguments. -/
def create_rocket (width height x y_target : ℤ) : List ℤ × ℤ × ℤ :=
  animate_rocket x height y_target

/-- `self.resolutions` (lines 29-35), as the association list of the dict. -/
def resolutions : List (String × ℤ × ℤ) :=
  [("360P", 800, 600), ("HD", 1280, 720), ("FULLHD", 1920, 1080),
   ("2K", 2560, 1440), ("4K", 3840, 2160)]

/-- `self.resolutions.get(resolution, self.resolutions["HD"])` (line 43):
dict lookup with fallback `(1280, 720)`. -/
def resolutions_get (r : String) : ℤ × ℤ :=
  (((resolutions.find? (fun e => e.1 == r)).map (fun e => e.2)).getD (1280, 720))

/-- The window size computed by `__init__` (lines 43-47): the chosen
resolution (with its `HD` fallback), each component clamped by
`min` against the detected screen dimension minus 50. -/
def init_size (r : String) (screen_width screen_height : ℤ) : ℤ × ℤ :=
  let wh := resolutions_get r
  (min wh.1 (screen_width - 50), min wh.2 (screen_height - 50))

/-- `change_resolution` (lines 67-74): `self.resolutions[selected_resolution]`
raises `KeyError` on an unknown key, modelled as `none`; on a known key the
same clamping as in `__init__` is applied. -/
def change_resolution (r : String) (screen_width screen_height : ℤ) :
    Option (ℤ × ℤ) :=
  (resolutions.find? (fun e => e.1 == r)).map
    (fun e => (min e.2.1 (screen_width - 50), min e.2.2 (screen_height - 50)))

/-- A fixed admissible draw (angle 0, distance 20, first palette color),
used to instantiate the explosion theorems on concrete inputs. -/
noncomputable def constDraw : ℕ → Draw :=
  fun _ => ⟨0, 20, ⟨0, by norm_num [colors]⟩⟩

end Fireworks

namespace Fireworks

variable {α : Type} [LinearOrderedField α]

/-- Characterization of one survived `animate_explosion` pass for one
particle: the visual must have been present, the moved position must be in
bounds, and the result is the moved particle. -/
theorem stepParticle_eq_some {width height : α} {p q : Particle α} :
    stepParticle width height p = some q ↔
      p.present = true ∧
      (0 ≤ p.x + p.dx * (1 / 10) ∧ p.x + p.dx * (1 / 10) ≤ width ∧
       0 ≤ p.y + p.dy * (1 / 10) ∧ p.y + p.dy * (1 / 10) ≤ height) ∧
      q = { p with x := p.x + p.dx * (1 / 10), y := p.y + p.dy * (1 / 10) } := by
  unfold stepParticle
  by_cases hp : p.present = true
  · rw [if_pos hp]
    by_cases hb : 0 ≤ p.x + p.dx * (1 / 10) ∧ p.x + p.dx * (1 / 10) ≤ width ∧
        0 ≤ p.y + p.dy * (1 / 10) ∧ p.y + p.dy * (1 / 10) ≤ height
    · rw [if_pos hb]
      constructor
      · intro hq
        exact ⟨hp, hb, (Option.some.inj hq).symm⟩
      · intro hq
        rw [hq.2.2]
    · rw [if_neg hb]
      constructor
      · intro hq
        cases hq
      · intro hq
        exact absurd hq.2.1 hb
  · rw [if_neg hp]
    constructor
    · intro hq
      cases hq
    · intro hq
      exact absurd hq.1 hp

/-- Characterization of a removal in one `animate_explosion` pass. -/
theorem stepParticle_eq_none {width height : α} {p : Particle α} :
    stepParticle width height p = none ↔
      p.present = false ∨
      ¬ (0 ≤ p.x + p.dx * (1 / 10) ∧ p.x + p.dx * (1 / 10) ≤ width ∧
         0 ≤ p.y + p.dy * (1 / 10) ∧ p.y + p.dy * (1 / 10) ≤ height) := by
  unfold stepParticle
  by_cases hp : p.present = true
  · rw [if_pos hp]
    by_cases hb : 0 ≤ p.x + p.dx * (1 / 10) ∧ p.x + p.dx * (1 / 10) ≤ width ∧
        0 ≤ p.y + p.dy * (1 / 10) ∧ p.y + p.dy * (1 / 10) ≤ height
    · rw [if_pos hb]
      constructor
      · intro hq
        cases hq
      · intro hq
        rcases hq with hq | hq
        · rw [hp] at hq
          cases hq
        · exact absurd hb hq
    · rw [if_neg hb]
      exact iff_of_true rfl (Or.inr hb)
  · rw [if_neg hp]
    simp only [Bool.not_eq_true] at hp
    exact iff_of_true rfl (Or.inl hp)

/-- A particle that is still alive after `k` frames sits at
`origin + k * 0.1 * (dx, dy)` and still carries its original velocity,
color, handle and presence. -/
theorem particleAfter_some_eq {width height : α} {p q : Particle α} {k : ℕ}
    (hq : particleAfter width height p k = some q) :
    q = { p with x := p.x + k * (p.dx * (1 / 10)),
                 y := p.y + k * (p.dy * (1 / 10)) } := by
  obtain ⟨pid, px, py, pdx, pdy, pc, pp⟩ := p
  induction k generalizing q with
  | zero =>
    rw [particleAfter] at hq
    obtain rfl := Option.some.inj hq
    push_cast
    simp
  | succ n ih =>
    rw [particleAfter] at hq
    cases hr : particleAfter width height ⟨pid, px, py, pdx, pdy, pc, pp⟩ n with
    | none =>
      rw [hr] at hq
      cases hq
    | some r =>
      rw [hr, Option.some_bind] at hq
      obtain ⟨-, -, hq2⟩ := stepParticle_eq_some.mp hq
      rw [hq2, ih hr]
      simp only [Particle.mk.injEq, true_and, and_true]
      push_cast
      exact ⟨by ring, by ring⟩

/-- A deleted particle stays deleted in all later frames. -/
theorem particleAfter_none_mono {width height : α} {p : Particle α} {k m : ℕ}
    (hk : particleAfter width height p k = none) (hkm : k ≤ m) :
    particleAfter width height p m = none := by
  induction m, hkm using Nat.le_induction with
  | base => exact hk
  | succ n _ ih =>
    rw [particleAfter, ih, Option.none_bind]

/-- As long as every moved position through frame `k` stays inside the
canvas, the particle survives and follows the linear trajectory. -/
theorem particleAfter_of_inBounds (width height : α) (p : Particle α) (k : ℕ)
    (hp : p.present = true)
    (hb : ∀ j : ℕ, 1 ≤ j → j ≤ k →
      (0 ≤ p.x + j * (p.dx * (1 / 10)) ∧ p.x + j * (p.dx * (1 / 10)) ≤ width) ∧
      (0 ≤ p.y + j * (p.dy * (1 / 10)) ∧ p.y + j * (p.dy * (1 / 10)) ≤ height)) :
    particleAfter width height p k =
      some { p with x := p.x + k * (p.dx * (1 / 10)),
                    y := p.y + k * (p.dy * (1 / 10)) } := by
  obtain ⟨pid, px, py, pdx, pdy, pc, pp⟩ := p
  simp only at hp hb
  induction k with
  | zero =>
    rw [particleAfter]
    push_cast
    simp
  | succ n ih =>
    rw [particleAfter, ih (fun j h1 h2 => hb j h1 (h2.trans (Nat.le_succ n))),
      Option.some_bind]
    have hn := hb (n + 1) (by omega) le_rfl
    push_cast at hn
    apply stepParticle_eq_some.mpr
    refine ⟨hp, ?_, ?_⟩
    · constructor
      · have := hn.1.1
        ring_nf at this ⊢
        exact this
      · refine ⟨?_, ?_, ?_⟩
        · have := hn.1.2
          ring_nf at this ⊢
          exact this
        · have := hn.2.1
          ring_nf at this ⊢
          exact this
        · have := hn.2.2
          ring_nf at this ⊢
          exact this
    · simp only [Particle.mk.injEq, true_and, and_true]
      push_cast
      exact ⟨by ring, by ring⟩

/-- The particle list after `n` frames is the pointwise survival of the
initial list: `animate_explosion` never adds or reorders particles. -/
theorem explosionFrames_eq_filterMap (width height : α) (ps : List (Particle α))
    (n : ℕ) :
    explosionFrames width height ps n =
      ps.filterMap (fun p => particleAfter width height p n) := by
  induction n with
  | zero =>
    rw [explosionFrames]
    simp [particleAfter]
  | succ n ih =>
    rw [explosionFrames, ih]
    simp only [animate_explosion]
    rw [List.filterMap_filterMap]
    apply List.filterMap_congr
    intro p _
    rw [particleAfter]

/-- Once the remaining-particle list is empty it stays empty. -/
theorem explosionFrames_empty_mono (width height : α) (ps : List (Particle α))
    {n m : ℕ} (hn : explosionFrames width height ps n = []) (hnm : n ≤ m) :
    explosionFrames width height ps m = [] := by
  induction m, hnm using Nat.le_induction with
  | base => exact hn
  | succ k _ ih =>
    rw [explosionFrames, ih]
    simp [animate_explosion]

/-- `filterMap` keeps a sub-sequence of the input, viewed through any
projection the partial map preserves. -/
theorem filterMap_map_sublist {β γ : Type} (l : List β) (f : β → Option β)
    (g : β → γ) (hf : ∀ b b', f b = some b' → g b' = g b) :
    ((l.filterMap f).map g).Sublist (l.map g) := by
  induction l with
  | nil => simp
  | cons a t ih =>
    cases hfa : f a with
    | none =>
      rw [List.filterMap_cons_none hfa, List.map_cons]
      exact List.Sublist.cons _ ih
    | some b =>
      rw [List.filterMap_cons_some hfa, List.map_cons, List.map_cons, hf a b hfa]
      exact List.Sublist.cons₂ _ ih

/-- An arithmetic progression with nonzero step cannot stay inside a
bounded interval forever. -/
theorem escape_linear [Archimedean α] (B c v : α) (hv : v ≠ 0)
    (hall : ∀ k : ℕ, 0 ≤ c + k * v ∧ c + k * v ≤ B) : False := by
  have hB0 : 0 ≤ B := le_trans (hall 0).1 (hall 0).2
  have hv' : 0 < |v| := abs_pos.mpr hv
  obtain ⟨n, hn⟩ := exists_nat_gt (B / |v|)
  have hBn : B < n * |v| := (div_lt_iff₀ hv').mp hn
  have h0 := hall 0
  have h1 := hall n
  norm_num at h0
  have habs : |(c + n * v) - c| ≤ B := by
    rw [abs_sub_le_iff]
    constructor <;> linarith [h0.1, h0.2, h1.1, h1.2]
  have heq : |(c + n * v) - c| = n * |v| := by
    rw [show (c + n * v) - c = n * v by ring, abs_mul, Nat.abs_cast]
  rw [heq] at habs
  linarith

/-- Any particle alive after at least one frame sits inside the canvas. -/
theorem particleAfter_succ_bounds {width height : α} {p q : Particle α} {k : ℕ}
    (hq : particleAfter width height p (k + 1) = some q) :
    (0 ≤ q.x ∧ q.x ≤ width) ∧ (0 ≤ q.y ∧ q.y ≤ height) := by
  rw [particleAfter] at hq
  cases hr : particleAfter width height p k with
  | none =>
    rw [hr] at hq
    cases hq
  | some r =>
    rw [hr, Option.some_bind] at hq
    obtain ⟨-, hb, hq2⟩ := stepParticle_eq_some.mp hq
    rw [hq2]
    exact ⟨⟨hb.1, hb.2.1⟩, ⟨hb.2.2.1, hb.2.2.2⟩⟩

/-- A particle whose velocity is not the zero vector is deleted after
finitely many frames: one of its coordinates is a nonconstant arithmetic
progression, which must eventually leave the canvas. -/
theorem exists_exit [Archimedean α] (width height : α) (p : Particle α)
    (hne : p.dx ≠ 0 ∨ p.dy ≠ 0) :
    ∃ k, particleAfter width height p k = none := by
  by_contra h0
  push_neg at h0
  have key : ∀ k : ℕ,
      (0 ≤ p.x + (k + 1 : ℕ) * (p.dx * (1 / 10)) ∧
        p.x + (k + 1 : ℕ) * (p.dx * (1 / 10)) ≤ width) ∧
      (0 ≤ p.y + (k + 1 : ℕ) * (p.dy * (1 / 10)) ∧
        p.y + (k + 1 : ℕ) * (p.dy * (1 / 10)) ≤ height) := by
    intro k
    obtain ⟨q, hq⟩ := Option.ne_none_iff_exists'.mp (h0 (k + 1))
    have hb := particleAfter_succ_bounds hq
    have he := particleAfter_some_eq hq
    rw [he] at hb
    exact hb
  cases hne with
  | inl hdx =>
    apply escape_linear width (p.x + p.dx * (1 / 10)) (p.dx * (1 / 10))
      (mul_ne_zero hdx (by norm_num))
    intro k
    have hk := (key k).1
    push_cast at hk
    constructor <;> [skip; skip] <;> · push_cast; linarith [hk.1, hk.2, (by ring :
      p.x + ((k : α) + 1) * (p.dx * (1 / 10)) =
        p.x + p.dx * (1 / 10) + (k : α) * (p.dx * (1 / 10)))]
  | inr hdy =>
    apply escape_linear height (p.y + p.dy * (1 / 10)) (p.dy * (1 / 10))
      (mul_ne_zero hdy (by norm_num))
    intro k
    have hk := (key k).2
    push_cast at hk
    constructor <;> [skip; skip] <;> · push_cast; linarith [hk.1, hk.2, (by ring :
      p.y + ((k : α) + 1) * (p.dy * (1 / 10)) =
        p.y + p.dy * (1 / 10) + (k : α) * (p.dy * (1 / 10)))]

/-- A uniform deletion deadline for everything in a finite particle list. -/
theorem exists_all_exit (width height : α) (ps : List (Particle α))
    (h : ∀ p ∈ ps, ∃ k, particleAfter width height p k = none) :
    ∃ n, ∀ p ∈ ps, particleAfter width height p n = none := by
  induction ps with
  | nil => exact ⟨0, by simp⟩
  | cons a t ih =>
    obtain ⟨ka, hka⟩ := h a (List.mem_cons_self a t)
    obtain ⟨n, hn⟩ := ih (fun p hp => h p (List.mem_cons_of_mem a hp))
    refine ⟨max ka n, ?_⟩
    intro p hp
    rcases List.mem_cons.mp hp with rfl | hp
    · exact particleAfter_none_mono hka (le_max_left _ _)
    · exact particleAfter_none_mono (hn p hp) (le_max_right _ _)

/-- The first entry of the rocket trace is the initial `y_start`. -/
theorem animate_rocket_head (x ys yt : ℤ) :
    (animate_rocket x ys yt).1.head? = some ys := by
  rw [animate_rocket]
  split <;> simp

/-- Consecutive tracked rocket heights: each is above the target and the
next is exactly 10 lower. -/
theorem animate_rocket_chain (x ys yt : ℤ) :
    List.Chain' (fun a b => a > yt ∧ b = a - 10) (animate_rocket x ys yt).1 := by
  induction ys, yt using animate_rocket.induct x with
  | case1 ys yt h ih =>
    rw [animate_rocket, dif_pos h]
    refine List.chain'_cons'.mpr ⟨?_, ih⟩
    intro b hb
    rw [animate_rocket_head] at hb
    cases hb
    exact ⟨h, rfl⟩
  | case2 ys yt h =>
    rw [animate_rocket, dif_neg h]
    simp

/-- The final tracked rocket height is at most the target. -/
theorem animate_rocket_last (x ys yt : ℤ) :
    ∃ l, (animate_rocket x ys yt).1.getLast? = some l ∧ l ≤ yt := by
  induction ys, yt using animate_rocket.induct x with
  | case1 ys yt h ih =>
    rw [animate_rocket, dif_pos h]
    obtain ⟨l, hl, hle⟩ := ih
    refine ⟨l, ?_, hle⟩
    rw [List.getLast?_cons]
    cases hne : (animate_rocket x (ys - 10) yt).1 with
    | nil =>
      rw [hne] at hl
      simp at hl
    | cons a as =>
      rw [hne] at hl
      simp [hl]
  | case2 ys yt h =>
    rw [animate_rocket, dif_neg h]
    exact ⟨ys, rfl, by omega⟩

/-- The rocket loop always hands `(x, y_target)` to `explode`. -/
theorem animate_rocket_point (x ys yt : ℤ) :
    (animate_rocket x ys yt).2 = (x, yt) := by
  induction ys, yt using animate_rocket.induct x with
  | case1 ys yt h ih =>
    rw [animate_rocket, dif_pos h]
    exact ih
  | case2 ys yt h =>
    rw [animate_rocket, dif_neg h]

/-- When the climb is an exact multiple of the step, the trace has one
entry per frame plus the initial one and ends exactly at the target. -/
theorem animate_rocket_multiple (x yt : ℤ) (n : ℕ) :
    (animate_rocket x (yt + 10 * n) yt).1.length = n + 1 ∧
    (animate_rocket x (yt + 10 * n) yt).1.getLast? = some yt := by
  induction n with
  | zero =>
    rw [animate_rocket, dif_neg (by omega)]
    norm_num
  | succ n ih =>
    push_cast
    rw [animate_rocket, dif_pos (by push_cast; omega)]
    have harg : yt + 10 * ((n : ℤ) + 1) - 10 = yt + 10 * (n : ℤ) := by ring
    push_cast at ih
    rw [harg]
    constructor
    · simpa using ih.1
    · rw [List.getLast?_cons]
      cases hne : (animate_rocket x (yt + 10 * (n : ℤ)) yt).1 with
      | nil =>
        rw [hne] at ih
        simp at ih
      | cons a as =>
        rw [hne] at ih
        simp [ih.2]

/-- C1: for every spawned rocket the tracked y-positions over successive
frames start at the canvas height and strictly decrease by exactly 10
while above `y_target`; the loop ends with a height of at most `y_target`
(at which point the visual is removed) and the explosion is invoked at
`(x, y_target)`.  In the 800×600 scenario with `y_target = 150` the
rocket starts at `y = 600` and reaches `y ≤ 150` after exactly 45 frames
(trace of 46 tracked heights ending at 150). -/
theorem rocket_descends_and_explodes (width height x y_target : ℤ) :
    (create_rocket width height x y_target).1.head? = some height ∧
    List.Chain' (fun a b => a > y_target ∧ b = a - 10)
      (create_rocket width height x y_target).1 ∧
    (∃ l, (create_rocket width height x y_target).1.getLast? = some l ∧
      l ≤ y_target) ∧
    (create_rocket width height x y_target).2 = (x, y_target) ∧
    (create_rocket 800 600 400 150).1.length = 46 ∧
    (create_rocket 800 600 400 150).1.getLast? = some 150 := by
  have hsc := animate_rocket_multiple 400 150 45
  norm_num at hsc
  exact ⟨animate_rocket_head x height y_target,
    animate_rocket_chain x height y_target,
    animate_rocket_last x height y_target,
    animate_rocket_point x height y_target,
    hsc.1, hsc.2⟩

/-- C2: a particle still alive after `k` frames sits at its origin plus
`k * 0.1 * (dx, dy)`, and its velocity vector is unchanged: each frame
displaces it by exactly `(dx * 0.1, dy * 0.1)` with no acceleration and
no decay. -/
theorem particle_position_linear (width height : α) (p q : Particle α)
    (k : ℕ) (hq : particleAfter width height p k = some q) :
    q.x = p.x + k * (p.dx * (1 / 10)) ∧ q.y = p.y + k * (p.dy * (1 / 10)) ∧
    q.dx = p.dx ∧ q.dy = p.dy := by
  rw [particleAfter_some_eq hq]
  exact ⟨rfl, rfl, rfl, rfl⟩

/-- Witness for C2 at a concrete input: one frame of a particle at
`(400, 150)` with velocity `(50, 0)` on the 800×600 canvas. -/
theorem particle_position_linear_witness :
    particleAfter (800 : ℚ) 600 ⟨2, 400, 150, 50, 0, "red", true⟩ 1 =
      some ⟨2, 405, 150, 50, 0, "red", true⟩ ∧
    ((405 : ℚ) = 400 + (1 : ℕ) * ((50 : ℚ) * (1 / 10)) ∧
     (150 : ℚ) = 150 + (1 : ℕ) * ((0 : ℚ) * (1 / 10)) ∧
     (50 : ℚ) = 50 ∧ (0 : ℚ) = 0) := by
  have h : particleAfter (800 : ℚ) 600 ⟨2, 400, 150, 50, 0, "red", true⟩ 1 =
      some ⟨2, 405, 150, 50, 0, "red", true⟩ := by
    rw [particleAfter, particleAfter, Option.some_bind]
    norm_num [stepParticle]
  exact ⟨h, particle_position_linear 800 600 _ _ 1 h⟩

/-- C3: in one advance step a particle is removed exactly when its moved
position leaves `[0, width] × [0, height]` on either axis, or its visual
was already absent before the move; the absent case yields silent removal
(`none`), not an error. -/
theorem particle_removal_iff (width height : α) (p : Particle α) :
    stepParticle width height p = none ↔
      (¬ (0 ≤ p.x + p.dx * (1 / 10) ∧ p.x + p.dx * (1 / 10) ≤ width ∧
          0 ≤ p.y + p.dy * (1 / 10) ∧ p.y + p.dy * (1 / 10) ≤ height) ∨
       p.present = false) := by
  rw [stepParticle_eq_none]
  tauto

/-- C5: an `animate_explosion` pass schedules a next pass exactly when at
least one particle remains, and once the remaining list is empty no later
pass ever has particles or schedules again. -/
theorem explosion_scheduling (width height : α) (ps : List (Particle α)) :
    ((animate_explosion width height ps).2 = true ↔
      (animate_explosion width height ps).1 ≠ []) ∧
    ∀ n, explosionFrames width height ps n = [] →
      ∀ m, n ≤ m →
        explosionFrames width height ps m = [] ∧
        (animate_explosion width height
          (explosionFrames width height ps m)).2 = false := by
  constructor
  · simp [animate_explosion]
  · intro n hn m hm
    have hme := explosionFrames_empty_mono width height ps hn hm
    refine ⟨hme, ?_⟩
    rw [hme]
    simp [animate_explosion]

/-- Witness for C5 at a concrete input: the empty particle list on the
800×600 canvas. -/
theorem explosion_scheduling_witness :
    explosionFrames (800 : ℚ) 600 ([] : List (Particle ℚ)) 0 = [] ∧ (0 : ℕ) ≤ 1 ∧
    (explosionFrames (800 : ℚ) 600 ([] : List (Particle ℚ)) 1 = [] ∧
     (animate_explosion (800 : ℚ) 600
       (explosionFrames (800 : ℚ) 600 ([] : List (Particle ℚ)) 1)).2 = false) :=
  ⟨rfl, by norm_num,
    (explosion_scheduling (800 : ℚ) 600 []).2 0 rfl 1 (by norm_num)⟩

/-- C6 counterexample: the particle with `dx = 50, dy = 0` starting at
`(400, 150)` on the 800-wide canvas is NOT removed after 80 frames — at
frame 80 its x-coordinate is exactly 800, which still satisfies the
inclusive bound `0 <= pos[0] <= width`. -/
theorem particle_alive_at_80 :
    particleAfter (800 : ℚ) 600 ⟨1, 400, 150, 50, 0, "white", true⟩ 80 ≠ none := by
  have hb : ∀ j : ℕ, 1 ≤ j → j ≤ 80 →
      ((0 : ℚ) ≤ 400 + j * (50 * (1 / 10)) ∧
        (400 : ℚ) + j * (50 * (1 / 10)) ≤ 800) ∧
      ((0 : ℚ) ≤ 150 + j * (0 * (1 / 10)) ∧
        (150 : ℚ) + j * (0 * (1 / 10)) ≤ 600) := by
    intro j h1 h2
    have hj : (j : ℚ) ≤ 80 := by exact_mod_cast h2
    have hj0 : (0 : ℚ) ≤ (j : ℚ) := Nat.cast_nonneg j
    constructor <;> constructor <;> nlinarith
  rw [particleAfter_of_inBounds 800 600 ⟨1, 400, 150, 50, 0, "white", true⟩ 80
    rfl hb]
  simp

/-- C6 amended: the particle with `dx = 50, dy = 0` starting at
`(400, 150)` on the 800×600 canvas survives frame 80 at `x = 800` and is
removed at frame 81, the first frame at which its x-coordinate exceeds
800. -/
theorem particle_removed_at_81 :
    particleAfter (800 : ℚ) 600 ⟨1, 400, 150, 50, 0, "white", true⟩ 80 =
      some ⟨1, 800, 150, 50, 0, "white", true⟩ ∧
    particleAfter (800 : ℚ) 600 ⟨1, 400, 150, 50, 0, "white", true⟩ 81 = none := by
  have hb : ∀ j : ℕ, 1 ≤ j → j ≤ 80 →
      ((0 : ℚ) ≤ 400 + j * (50 * (1 / 10)) ∧
        (400 : ℚ) + j * (50 * (1 / 10)) ≤ 800) ∧
      ((0 : ℚ) ≤ 150 + j * (0 * (1 / 10)) ∧
        (150 : ℚ) + j * (0 * (1 / 10)) ≤ 600) := by
    intro j h1 h2
    have hj : (j : ℚ) ≤ 80 := by exact_mod_cast h2
    have hj0 : (0 : ℚ) ≤ (j : ℚ) := Nat.cast_nonneg j
    constructor <;> constructor <;> nlinarith
  have h80 : particleAfter (800 : ℚ) 600 ⟨1, 400, 150, 50, 0, "white", true⟩ 80 =
      some ⟨1, 800, 150, 50, 0, "white", true⟩ := by
    rw [particleAfter_of_inBounds 800 600 ⟨1, 400, 150, 50, 0, "white", true⟩ 80
      rfl hb]
    norm_num
  refine ⟨h80, ?_⟩
  rw [show (81 : ℕ) = 80 + 1 from rfl, particleAfter, h80, Option.some_bind]
  norm_num [stepParticle]

/-- C8: one `animate_explosion` pass keeps an order-preserving
sub-sequence of the input particles (identified by canvas handle) — no
particle is added and none rejoins — and a surviving particle keeps its
velocity, color and handle; only its position changes. -/
theorem explosion_particles_monotone (width height : α)
    (ps : List (Particle α)) :
    ((animate_explosion width height ps).1.map Particle.id).Sublist
      (ps.map Particle.id) ∧
    ∀ p ∈ ps, ∀ q, stepParticle width height p = some q →
      q.dx = p.dx ∧ q.dy = p.dy ∧ q.color = p.color ∧ q.id = p.id := by
  constructor
  · simp only [animate_explosion]
    apply filterMap_map_sublist
    intro b b' hb
    obtain ⟨-, -, h⟩ := stepParticle_eq_some.mp hb
    rw [h]
  · intro p _ q hq
    obtain ⟨-, -, h⟩ := stepParticle_eq_some.mp hq
    rw [h]
    exact ⟨rfl, rfl, rfl, rfl⟩

/-- Witness for C8 at a concrete input: a single-particle list on the
800×600 canvas. -/
theorem explosion_particles_monotone_witness :
    (⟨1, 400, 150, 50, 0, "white", true⟩ : Particle ℚ) ∈
      [(⟨1, 400, 150, 50, 0, "white", true⟩ : Particle ℚ)] ∧
    stepParticle (800 : ℚ) 600 ⟨1, 400, 150, 50, 0, "white", true⟩ =
      some ⟨1, 405, 150, 50, 0, "white", true⟩ ∧
    ((50 : ℚ) = 50 ∧ (0 : ℚ) = 0 ∧ "white" = "white" ∧ (1 : ℕ) = 1) := by
  have hs : stepParticle (800 : ℚ) 600 ⟨1, 400, 150, 50, 0, "white", true⟩ =
      some ⟨1, 405, 150, 50, 0, "white", true⟩ := by
    norm_num [stepParticle]
  exact ⟨List.mem_singleton.mpr rfl, hs,
    (explosion_particles_monotone (800 : ℚ) 600
        [⟨1, 400, 150, 50, 0, "white", true⟩]).2 _
      (List.mem_singleton.mpr rfl) _ hs⟩

/-- C7: at construction the window dimensions are the named resolution's
pair from the table, each component clamped (by `min`) to the detected
screen dimension minus 50; with resolution `"360P"` and a screen of at
least 900×700 the window is 800×600. -/
theorem init_resolution_size (r : String) (w h screen_w screen_h : ℤ)
    (hr : (r, w, h) ∈ resolutions) :
    init_size r screen_w screen_h =
      (min w (screen_w - 50), min h (screen_h - 50)) ∧
    ∀ sw sh : ℤ, 900 ≤ sw → 700 ≤ sh → init_size "360P" sw sh = (800, 600) := by
  constructor
  · have hg : resolutions_get r = (w, h) := by
      fin_cases hr <;> rfl
    simp only [init_size]
    rw [hg]
  · intro sw sh hsw hsh
    simp only [init_size]
    rw [show resolutions_get "360P" = (800, 600) from rfl]
    rw [show ((800, 600) : ℤ × ℤ).1 = 800 from rfl,
      show ((800, 600) : ℤ × ℤ).2 = 600 from rfl,
      min_eq_left (by omega : (800 : ℤ) ≤ sw - 50),
      min_eq_left (by omega : (600 : ℤ) ≤ sh - 50)]

/-- Witness for C7 at a concrete input: the `"360P"` table entry with a
900×700 screen. -/
theorem init_resolution_size_witness :
    ("360P", (800 : ℤ), (600 : ℤ)) ∈ resolutions ∧
    init_size "360P" 900 700 = (min 800 (900 - 50), min 600 (700 - 50)) :=
  ⟨List.mem_cons_self _ _,
    (init_resolution_size "360P" 800 600 900 700 (List.mem_cons_self _ _)).1⟩

/-- C10: constructing the application with a resolution string outside
the five named keys silently falls back to the HD pair `(1280, 720)`
(then clamped as usual), whereas `change_resolution` indexes the table
directly and fails (`KeyError`, modelled as `none`) on an unknown key;
each of the five table keys succeeds. -/
theorem resolution_lookup_fallback (r : String) (sw sh : ℤ)
    (hr : resolutions.find? (fun e => e.1 == r) = none) :
    init_size r sw sh = (min 1280 (sw - 50), min 720 (sh - 50)) ∧
    change_resolution r sw sh = none ∧
    ∀ e ∈ resolutions, (change_resolution e.1 sw sh).isSome = true := by
  refine ⟨?_, ?_, ?_⟩
  · simp only [init_size, resolutions_get]
    rw [hr]
    rfl
  · unfold change_resolution
    rw [hr]
    rfl
  · intro e he
    fin_cases he <;> rfl

/-- Witness for C10 at a concrete input: the unknown key `"1080P"`. -/
theorem resolution_lookup_fallback_witness :
    resolutions.find? (fun e => e.1 == "1080P") = none ∧
    init_size "1080P" 2000 1500 = (min 1280 (2000 - 50), min 720 (1500 - 50)) :=
  ⟨rfl, (resolution_lookup_fallback "1080P" 2000 1500 rfl).1⟩

/-- The squared velocity magnitude of a burst particle equals the squared
drawn distance: `(d cos a)² + (d sin a)² = d²`. -/
theorem mkBurstParticle_sq (x y_target : ℝ) (i : ℕ) (d : Draw) :
    (mkBurstParticle x y_target i d).dx ^ 2 +
      (mkBurstParticle x y_target i d).dy ^ 2 = d.distance ^ 2 := by
  simp only [mkBurstParticle]
  have hcs := Real.sin_sq_add_cos_sq d.angle
  linear_combination d.distance ^ 2 * hcs

/-- C4: every call of `explode` creates exactly 30 particles, each
colored from the fixed 7-color palette, and each velocity vector's
magnitude is the drawn distance, which lies in `[20, 100]`. -/
theorem explode_burst (x y_target : ℝ) (draws : ℕ → Draw)
    (hd : ∀ i, 20 ≤ (draws i).distance ∧ (draws i).distance ≤ 100) :
    (explode x y_target draws).length = 30 ∧
    ∀ p ∈ explode x y_target draws,
      p.color ∈ colors ∧
      20 ≤ Real.sqrt (p.dx ^ 2 + p.dy ^ 2) ∧
      Real.sqrt (p.dx ^ 2 + p.dy ^ 2) ≤ 100 := by
  refine ⟨by simp [explode], ?_⟩
  intro p hp
  simp only [explode, List.mem_map, List.mem_range] at hp
  obtain ⟨i, -, rfl⟩ := hp
  refine ⟨List.get_mem colors _ _, ?_, ?_⟩
  · rw [mkBurstParticle_sq, Real.sqrt_sq (by linarith [(hd i).1])]
    exact (hd i).1
  · rw [mkBurstParticle_sq, Real.sqrt_sq (by linarith [(hd i).1])]
    exact (hd i).2

/-- Witness for C4 at a concrete input: thirty copies of `constDraw`. -/
theorem explode_burst_witness :
    (∀ i : ℕ, 20 ≤ (constDraw i).distance ∧ (constDraw i).distance ≤ 100) ∧
    (explode 400 150 constDraw).length = 30 := by
  have hd : ∀ i : ℕ, 20 ≤ (constDraw i).distance ∧ (constDraw i).distance ≤ 100 := by
    intro i
    constructor <;> norm_num [constDraw]
  exact ⟨hd, (explode_burst 400 150 constDraw hd).1⟩

/-- C9 (implicit): every burst particle's per-frame displacement has
magnitude exactly `0.1 ×` its drawn distance, hence in `[2, 10]` and
strictly positive; consequently, on any positive finite canvas every
particle is eventually deleted, the remaining list becomes empty after
finitely many frames, and from then on `animate_explosion` never
schedules again. -/
theorem explosion_terminates (width height x y_target : ℝ)
    (hw : 0 < width) (hh : 0 < height) (draws : ℕ → Draw)
    (hd : ∀ i, 20 ≤ (draws i).distance ∧ (draws i).distance ≤ 100) :
    (∀ p ∈ explode x y_target draws, ∃ d : ℝ, 20 ≤ d ∧ d ≤ 100 ∧
      Real.sqrt ((p.dx * (1 / 10)) ^ 2 + (p.dy * (1 / 10)) ^ 2) = d * (1 / 10) ∧
      2 ≤ d * (1 / 10) ∧ d * (1 / 10) ≤ 10 ∧ 0 < d * (1 / 10)) ∧
    ∃ n, explosionFrames width height (explode x y_target draws) n = [] ∧
      ∀ m, n ≤ m →
        (animate_explosion width height
          (explosionFrames width height (explode x y_target draws) m)).2 =
          false := by
  constructor
  · intro p hp
    simp only [explode, List.mem_map, List.mem_range] at hp
    obtain ⟨i, -, rfl⟩ := hp
    refine ⟨(draws i).distance, (hd i).1, (hd i).2, ?_, by linarith [(hd i).1],
      by linarith [(hd i).2], by linarith [(hd i).1]⟩
    have hsq : ((mkBurstParticle x y_target i (draws i)).dx * (1 / 10)) ^ 2 +
        ((mkBurstParticle x y_target i (draws i)).dy * (1 / 10)) ^ 2 =
        ((draws i).distance * (1 / 10)) ^ 2 := by
      have h := mkBurstParticle_sq x y_target i (draws i)
      linear_combination ((1 : ℝ) / 100) * h
    rw [hsq, Real.sqrt_sq (by linarith [(hd i).1])]
  · have hexit : ∀ p ∈ explode x y_target draws,
        ∃ k, particleAfter width height p k = none := by
      intro p hp
      simp only [explode, List.mem_map, List.mem_range] at hp
      obtain ⟨i, -, rfl⟩ := hp
      apply exists_exit
      by_contra hc
      push_neg at hc
      have h := mkBurstParticle_sq x y_target i (draws i)
      rw [hc.1, hc.2] at h
      have h20 := (hd i).1
      nlinarith
    obtain ⟨n, hn⟩ := exists_all_exit width height _ hexit
    have hempty :
        explosionFrames width height (explode x y_target draws) n = [] := by
      rw [explosionFrames_eq_filterMap]
      exact List.filterMap_eq_nil_iff.mpr hn
    refine ⟨n, hempty, ?_⟩
    intro m hm
    rw [explosionFrames_empty_mono width height _ hempty hm]
    simp [animate_explosion]

/-- Witness for C9 at a concrete input: the 800×600 canvas and thirty
copies of `constDraw`. -/
theorem explosion_terminates_witness :
    (0 : ℝ) < 800 ∧ (0 : ℝ) < 600 ∧
    (∀ i : ℕ, 20 ≤ (constDraw i).distance ∧ (constDraw i).distance ≤ 100) ∧
    ∃ n, explosionFrames (800 : ℝ) 600 (explode 400 150 constDraw) n = [] ∧
      ∀ m, n ≤ m →
        (animate_explosion (800 : ℝ) 600
          (explosionFrames (800 : ℝ) 600 (explode 400 150 constDraw) m)).2 =
          false := by
  have hd : ∀ i : ℕ, 20 ≤ (constDraw i).distance ∧ (constDraw i).distance ≤ 100 := by
    intro i
    constructor <;> norm_num [constDraw]
  exact ⟨by norm_num, by norm_num, hd,
    (explosion_terminates 800 600 400 150 (by norm_num) (by norm_num)
      constDraw hd).2⟩

end Fireworks
